import Mathlib

/-!
Shallow embedding of the sharded Merkle-trie state engine.

Source layout (Go):
- `trie` package: `Node`, `Insert`, `computeHash`, `RootHash`, `GetProof`,
  `Proof`, `VerifyProof`, `Traverse`.
- `shard` package: `Shard`, `NewShard`, `Apply`, `Root`.
- `state` package: `ShardManager`, `RebalanceWithProof`, `calcStats`,
  `indexOfMax`, `twoMinIndices`, `splitShard`, `mergeShards`.
- `proof` package: `CompressedProof`, `CompressProof`, `DecompressProof`,
  `CrossProof`, `GenerateCrossProof`, `VerifyCrossProof`.

Modelling conventions:
- Go byte slices become `List Nat` (each entry a byte value).
- A Go `map[byte]T` becomes an association list `List (Nat × T)`; the trie
  keeps each children list strictly sorted by edge label, which is the
  canonical representation of the unordered Go map (the Go code never
  depends on map iteration order except where it sorts the keys first).
- `float64` threshold arithmetic becomes exact `ℚ` arithmetic; every
  concrete computation appearing in a theorem below is exact in binary
  floating point as well, so the branch decisions agree with the Go code.
- Mutable pointer structures become pure functional updates.
-/

namespace ShardedChain

/-- SHA-256 is modelled as an injective encoding of its input byte stream:
every property in scope concerns how the hash input is assembled (tag
bytes, child order), never the compression function itself, so hashing is
idealized as collision-free. The leading `2` (distinct from the tag bytes
`0` and `1`) keeps every computed digest different from the nil hash `[]`
of a never-hashed node, mirroring that a real 32-byte digest is never nil. -/
def sha256 (l : List Nat) : List Nat := 2 :: l

/-- Source `trie.Node`: a value (nil-able byte slice, `Option`), children
(`map[byte]*Node`, canonical sorted association list) and the cached hash. -/
inductive Node where
  | mk (value : Option (List Nat)) (children : List (Nat × Node)) (hash : List Nat)

def Node.value : Node → Option (List Nat)
  | .mk v _ _ => v

def Node.children : Node → List (Nat × Node)
  | .mk _ c _ => c

def Node.hash : Node → List Nat
  | .mk _ _ h => h

/-- Source `trie.NewNode`: empty children, no value; the `hash` field is
left at its zero value (nil), because `NewNode` does not call
`computeHash`. -/
def Node.new : Node := .mk none [] []

/-- Go map read `m[b]` for `map[byte]T` as an association list lookup. -/
def alookup {α : Type} : List (Nat × α) → Nat → Option α
  | [], _ => none
  | (b', x) :: rest, b => if b = b' then some x else alookup rest b

/-- Go map write `m[b] = x` on the canonical sorted association list:
replaces the binding for `b` if present, otherwise inserts it at its
sorted position. -/
def setChild : List (Nat × Node) → Nat → Node → List (Nat × Node)
  | [], b, c => [(b, c)]
  | (b', c') :: rest, b, c =>
      if b < b' then (b, c) :: (b', c') :: rest
      else if b = b' then (b, c) :: rest
      else (b', c') :: setChild rest b c

/-- Stream hashed by source `trie.computeHash`: a `0` tag plus the raw
value when a value is present, then for each child in ascending edge-label
order a `1` tag, the label byte, and the child's cached hash. The Go code
collects and sorts the map keys; over the canonical sorted children list
that is exactly the stored order. -/
def hashInput (value : Option (List Nat)) (children : List (Nat × Node)) : List Nat :=
  (match value with | some v => 0 :: v | none => []) ++
  children.flatMap (fun c => 1 :: c.1 :: c.2.hash)

/-- Source `trie.computeHash` result for a node with the given value and
children. -/
def computeHash (value : Option (List Nat)) (children : List (Nat × Node)) : List Nat :=
  sha256 (hashInput value children)

/-- Source `trie.Insert`: descends one edge per key byte, creating missing
nodes, sets the terminal value, and recomputes the cached hash of every
node on the path on the way back up. -/
def Node.insert : Node → List Nat → List Nat → Node
  | .mk _ children _, [], v =>
      .mk (some v) children (computeHash (some v) children)
  | .mk value children _, b :: rest, v =>
      let child := (alookup children b).getD Node.new
      let children' := setChild children b (child.insert rest v)
      .mk value children' (computeHash value children')

/-- Source `trie.RootHash`: returns the cached hash field. -/
def Node.rootHash (n : Node) : List Nat := n.hash

/-- Observer (not in the source as one function, but the composition of
the descent in `GetProof`): the value stored at `key`, if the path exists
and the terminal node holds a value. -/
def Node.lookupKey : Node → List Nat → Option (List Nat)
  | n, [] => n.value
  | n, b :: rest =>
      match alookup n.children b with
      | none => none
      | some c => c.lookupKey rest

/-- Source `trie.Proof`: leaf value plus one sibling map per key depth. -/
structure MerkleProof where
  value : List Nat
  steps : List (List (Nat × List Nat))
deriving DecidableEq

/-- Source `trie.GetProof`: walks the key, recording at each depth the
hashes of every sibling edge (children of the current node other than the
key byte), and fails with not-found if the path is broken or the terminal
node has no value. -/
def Node.getProof : Node → List Nat → Option MerkleProof
  | n, [] =>
      match n.value with
      | none => none
      | some v => some ⟨v, []⟩
  | n, b :: rest =>
      let sibs := (n.children.filter (fun c => c.1 ≠ b)).map (fun c => (c.1, c.2.hash))
      match alookup n.children b with
      | none => none
      | some child =>
        match child.getProof rest with
        | none => none
        | some p => some ⟨p.value, sibs :: p.steps⟩

/-- Sorted insertion without duplicates: models adding one element to the
`set` of child keys built by `trie.VerifyProof` before `sort.Ints`. -/
def sortedInsertNat (b : Nat) : List Nat → List Nat
  | [] => [b]
  | a :: rest =>
      if b < a then b :: a :: rest
      else if b = a then a :: rest
      else a :: sortedInsertNat b rest

/-- Models `trie.VerifyProof`'s key-set construction: collect the labels
into a set and sort ascending. -/
def sortDedup (l : List Nat) : List Nat := l.foldr sortedInsertNat []

/-- One level of the bottom-up fold in `trie.VerifyProof`: union the
sibling labels with the key's own byte, sort, and hash the `1`-tagged
contributions, substituting the running candidate for the key byte. -/
def verifyStep (keyByte : Nat) (sibs : List (Nat × List Nat)) (current : List Nat) : List Nat :=
  let ks := sortDedup (keyByte :: sibs.map Prod.fst)
  sha256 (ks.flatMap (fun b =>
    1 :: b :: (if b = keyByte then current else (alookup sibs b).getD [])))

/-- Bottom-up climb of `trie.VerifyProof` (its loop runs from the deepest
level to level 0; the recursion below unfolds to the same fold). The Go
code indexes `proof.Steps[i]` for every `i < len(key)` and would panic on
a shorter proof; the claims below only apply it to length-matched proofs. -/
def climb : List Nat → List (List (Nat × List Nat)) → List Nat → List Nat
  | [], _, current => current
  | b :: krest, steps, current =>
      verifyStep b (steps.headD []) (climb krest steps.tail current)

/-- Source `trie.VerifyProof`: recomputes a candidate root from the leaf
hash (value tag `0` plus the proof's value) and compares it to `rootHash`. -/
def verifyProof (rootHash : List Nat) (key : List Nat) (p : MerkleProof) : Bool :=
  climb key p.steps (sha256 (0 :: p.value)) = rootHash

mutual
/-- Source `trie.Traverse`: full structural walk collecting every stored
key/value pair (Go map iteration order is unspecified; the model walks
children in the canonical sorted order). -/
def Node.traverse : Node → List (List Nat × List Nat)
  | .mk value children _ =>
      (match value with | some v => [([], v)] | none => []) ++
      traverseChildren children

def traverseChildren : List (Nat × Node) → List (List Nat × List Nat)
  | [] => []
  | (b, c) :: rest =>
      (Node.traverse c).map (fun kv => (b :: kv.1, kv.2)) ++ traverseChildren rest
end

/-- Fresh trie populated by a sequence of inserts (left to right). -/
def buildTrie (l : List (List Nat × List Nat)) : Node :=
  l.foldl (fun t kv => t.insert kv.1 kv.2) Node.new

/-- Source `shard.Shard`: one trie plus a mutation counter. -/
structure Shard where
  tree : Node
  mutations : Nat

/-- Source `shard.NewShard`. -/
def Shard.new : Shard := ⟨Node.new, 0⟩

/-- Source `shard.Apply`: insert and bump the counter. -/
def Shard.apply (s : Shard) (key value : List Nat) : Shard :=
  ⟨s.tree.insert key value, s.mutations + 1⟩

/-- Source `shard.Root`. -/
def Shard.root (s : Shard) : List Nat := s.tree.rootHash

/-- Source `state.calcStats`: mean and (population) variance of the
mutation counters; `float64` arithmetic modelled exactly over `ℚ`. -/
def calcStats (data : List Nat) : ℚ × ℚ :=
  if data.length = 0 then (0, 0)
  else
    let n : ℚ := data.length
    let mean := (data.map (fun v => (v : ℚ))).sum / n
    let ss := (data.map (fun v => ((v : ℚ) - mean) * ((v : ℚ) - mean))).sum
    (mean, ss / n)

/-- Source `state.indexOfMax`: first index of the strict maximum under a
linear scan starting from index 0. -/
def indexOfMax (data : List Nat) : Nat :=
  (List.range data.length).foldl
    (fun max i => if data.getD max 0 < data.getD i 0 then i else max) 0

/-- Source `state.twoMinIndices`: indices of the two smallest counters;
`min1` is the argmin, `min2` the runner-up; Go indexes `data[0]` and
`data[1]` unconditionally (panicking below length 2 — all uses guard
`len > 1`), modelled with a default of 0. -/
def twoMinIndices (data : List Nat) : Nat × Nat :=
  let init := if data.getD 1 0 < data.getD 0 0 then ((1 : Nat), (0 : Nat)) else (0, 1)
  (List.range' 2 (data.length - 2)).foldl
    (fun m i =>
      if data.getD i 0 < data.getD m.1 0 then (i, m.1)
      else if data.getD i 0 < data.getD m.2 0 then (m.1, i)
      else m) init

/-- Source `state.splitShard`: partition the chosen shard's pairs by the
high bit of the first key byte (`kv.Key[0]&0x80 == 0`, i.e. `key₀ % 256 <
128`) into two fresh shards replacing it in place. An out-of-range index
would panic in Go and is modelled as a no-op (unreachable in the claims). -/
def splitShard (shards : List Shard) (idx : Nat) : List Shard :=
  match shards.get? idx with
  | none => shards
  | some old =>
      let p := (old.tree.traverse).foldl
        (fun (p : Shard × Shard) kv =>
          if kv.1.length ≠ 0 ∧ kv.1.headD 0 % 256 < 128
          then (p.1.apply kv.1 kv.2, p.2)
          else (p.1, p.2.apply kv.1 kv.2))
        (Shard.new, Shard.new)
      shards.take idx ++ [p.1, p.2] ++ shards.drop (idx + 1)

/-- Source `state.mergeShards`: normalizes `i1 ≤ i2`, replays both shards'
pairs into one fresh shard, and rebuilds the collection as
`Shards[:i1] ++ [merged] ++ Shards[i2+1:]` — note that this drops every
shard strictly between `i1` and `i2`. Out-of-range indices would panic in
Go and are modelled as a no-op (unreachable in the claims). -/
def mergeShards (shards : List Shard) (j1 j2 : Nat) : List Shard :=
  let i1 := if j2 < j1 then j2 else j1
  let i2 := if j2 < j1 then j1 else j2
  match shards.get? i1, shards.get? i2 with
  | some s1, some s2 =>
      let merged := (s2.tree.traverse).foldl
        (fun m kv => m.apply kv.1 kv.2)
        ((s1.tree.traverse).foldl (fun m kv => m.apply kv.1 kv.2) Shard.new)
      shards.take i1 ++ [merged] ++ shards.drop (i2 + 1)
  | _, _ => shards

/-- Source `state.RebalanceProof`. -/
structure RebalanceProof where
  preRoots : List (List Nat)
  postRoots : List (List Nat)
  operation : String
  shardIndex : List Nat
deriving DecidableEq

/-- Source `state.RebalanceWithProof`: under one exclusive section,
snapshot pre-roots and stats, decide split (variance above the split
threshold), else merge (variance below the merge threshold and more than
one shard), else nothing, then snapshot post-roots. The manager state is
the shard list; the result pairs the new state with the proof. -/
def rebalanceWithProof (shards : List Shard) (thresholdSplit thresholdMerge : ℚ) :
    List Shard × RebalanceProof :=
  let pre := shards.map Shard.root
  let stats := shards.map Shard.mutations
  let variance := (calcStats stats).2
  let step :=
    if thresholdSplit < variance then
      let i := indexOfMax stats
      (("split", [i]), splitShard shards i)
    else if variance < thresholdMerge ∧ 1 < shards.length then
      let i := twoMinIndices stats
      (("merge", [i.1, i.2]), mergeShards shards i.1 i.2)
    else (("none", ([] : List Nat)), shards)
  (step.2, ⟨pre, step.2.map Shard.root, step.1.1, step.1.2⟩)

/-- Source `proof.CompressedProof`. -/
structure CompressedProof where
  value : List Nat
  sibKeys : List (List Nat)
  sibHashes : List (List (List Nat))
deriving DecidableEq

/-- Source `proof.CompressProof`: per depth, collect the sibling-map keys,
sort them ascending (the Go code uses an in-place swap sort; the model
uses `List.insertionSort`, which computes the same ascending reordering),
and list the hashes in that key order. -/
def compressProof (p : MerkleProof) : CompressedProof :=
  { value := p.value
    sibKeys := p.steps.map (fun step => (step.map Prod.fst).insertionSort (· ≤ ·))
    sibHashes := p.steps.map (fun step =>
      ((step.map Prod.fst).insertionSort (· ≤ ·)).map
        (fun k => (alookup step k).getD [])) }

/-- Source `proof.DecompressProof`: rebuild each depth's sibling map from
the aligned key and hash lists (Go would panic if a hash list is shorter
than its key list; `zip` truncates, and the claims only use aligned
compressed proofs as produced by `compressProof`). -/
def decompressProof (cp : CompressedProof) : MerkleProof :=
  { value := cp.value
    steps := (cp.sibKeys.zip cp.sibHashes).map (fun s => s.1.zip s.2) }

/-- Source `proof.CrossProof`. -/
structure CrossProof where
  srcShard : Nat
  dstShard : Nat
  srcKey : List Nat
  dstKey : List Nat
  preSrcRoot : List Nat
  preDstRoot : List Nat
  srcProof : MerkleProof
  dstProof : MerkleProof
  postSrcRoot : List Nat
  postDstRoot : List Nat

/-- Source `proof.GenerateCrossProof`: reads both pre-roots, builds both
pre-state proofs (failing with a wrapped not-found error before any
mutation), then inserts `amount` at both keys and reads the post-roots.
The `getTrie` accessor is modelled by the list of shard tries, returned
updated alongside the result; sequential updates also model
`srcShard = dstShard` aliasing faithfully. -/
def generateCrossProof (tries : List Node) (srcShard dstShard : Nat)
    (keyFrom keyTo amount : List Nat) :
    Except String CrossProof × List Node :=
  let srcRoot := (tries.getD srcShard Node.new).rootHash
  let dstRoot := (tries.getD dstShard Node.new).rootHash
  match (tries.getD srcShard Node.new).getProof keyFrom with
  | none => (.error "src proof: key not found", tries)
  | some srcPrf =>
    match (tries.getD dstShard Node.new).getProof keyTo with
    | none => (.error "dst proof: key not found", tries)
    | some dstPrf =>
      let tries1 := tries.set srcShard ((tries.getD srcShard Node.new).insert keyFrom amount)
      let tries2 := tries1.set dstShard ((tries1.getD dstShard Node.new).insert keyTo amount)
      (.ok { srcShard := srcShard, dstShard := dstShard
             srcKey := keyFrom, dstKey := keyTo
             preSrcRoot := srcRoot, preDstRoot := dstRoot
             srcProof := srcPrf, dstProof := dstPrf
             postSrcRoot := (tries2.getD srcShard Node.new).rootHash
             postDstRoot := (tries2.getD dstShard Node.new).rootHash },
       tries2)

/-- Source `proof.VerifyCrossProof`: checks, in order, the source
pre-proof, the destination pre-proof, and that each shard's root moved;
returns the first failure's message, or `none` on success. -/
def verifyCrossProof (cp : CrossProof)
    (verifySingle : List Nat → List Nat → MerkleProof → Bool) : Option String :=
  if ¬ verifySingle cp.preSrcRoot cp.srcKey cp.srcProof then
    some "invalid source pre‑proof"
  else if ¬ verifySingle cp.preDstRoot cp.dstKey cp.dstProof then
    some "invalid dest pre‑proof"
  else if cp.preSrcRoot = cp.postSrcRoot then
    some "source root didn’t change"
  else if cp.preDstRoot = cp.postDstRoot then
    some "dest root didn’t change"
  else none

/-- Union, over a shard collection, of the key/value pairs recoverable via
`Traverse` (the replay set of the spec's rebalance-consistency property). -/
def allPairs (shards : List Shard) : List (List Nat × List Nat) :=
  shards.flatMap (fun s => s.tree.traverse)

/-- Decidable side condition on a key's path: every strict ancestor on the
path stores no value and the terminal node has no children. `VerifyProof`
folds only child-tag contributions at the levels above the leaf and only
the value tag at the leaf, so this is the regime the proof protocol covers
(the spec's documented structural limitation lies exactly outside it). -/
def cleanPath : Node → List Nat → Bool
  | n, [] => n.children.isEmpty
  | n, b :: rest =>
      n.value.isNone &&
      (match alookup n.children b with
       | none => true
       | some c => cleanPath c rest)

/-- Well-formedness of a children list: strictly ascending edge labels
(the canonical representation of the Go child map). -/
def sortedKeys (children : List (Nat × Node)) : Prop :=
  List.Pairwise (· < ·) (children.map Prod.fst)

/-- Invariant along one key path: every node on the path has its cached
hash consistent with its value and children, and canonical children. -/
def pathGood : Node → List Nat → Prop
  | n, [] => n.hash = computeHash n.value n.children ∧ sortedKeys n.children
  | n, b :: rest =>
      n.hash = computeHash n.value n.children ∧ sortedKeys n.children ∧
      ∀ c, alookup n.children b = some c → pathGood c rest

/-- Invariant on every path of a trie (holds for any trie that has seen at
least one insert; a freshly created node still has its nil hash). -/
def allGood (n : Node) : Prop := ∀ k, pathGood n k

/-- Invariant of a node whose own cached hash may be stale (the fresh
root) but whose children are all fully consistent. -/
def subGood (n : Node) : Prop :=
  sortedKeys n.children ∧ ∀ b c, alookup n.children b = some c → allGood c

lemma alookup_eq_none {α : Type} (s : List (Nat × α)) (b : Nat) :
    alookup s b = none ↔ b ∉ s.map Prod.fst := by
  induction s with
  | nil => simp [alookup]
  | cons hd tl ih =>
    rcases hd with ⟨a, x⟩
    by_cases h : b = a <;> simp [alookup, h, ih]

lemma alookup_isSome {α : Type} (s : List (Nat × α)) (b : Nat) :
    (alookup s b).isSome ↔ b ∈ s.map Prod.fst := by
  rcases h : alookup s b with _ | v
  · rw [alookup_eq_none] at h; simp [h]
  · have hne : alookup s b ≠ none := by simp [h]
    rw [Ne, alookup_eq_none] at hne
    simp [h, not_not.mp hne]

lemma alookup_zip_map {α : Type} (ks : List Nat) (f : Nat → α) (b : Nat) :
    alookup (ks.zip (ks.map f)) b = if b ∈ ks then some (f b) else none := by
  induction ks with
  | nil => simp [alookup]
  | cons a rest ih =>
    by_cases h : b = a
    · subst h; simp [alookup]
    · simpa [alookup, h, List.zip] using ih

lemma alookup_compress_step (s : List (Nat × List Nat)) (b : Nat) :
    alookup
      (((s.map Prod.fst).insertionSort (· ≤ ·)).zip
        (((s.map Prod.fst).insertionSort (· ≤ ·)).map (fun k => (alookup s k).getD []))) b
      = alookup s b := by
  rw [alookup_zip_map]
  by_cases h : b ∈ (s.map Prod.fst).insertionSort (· ≤ ·)
  · rw [if_pos h]
    rw [List.mem_insertionSort] at h
    rcases hv : alookup s b with _ | v
    · rw [alookup_eq_none] at hv; exact absurd h hv
    · simp [hv]
  · rw [if_neg h]
    rw [List.mem_insertionSort] at h
    exact ((alookup_eq_none s b).mpr h).symm

/-- C4 (counterexample): `RootHash` of a freshly created node is the nil
hash, because `NewNode` never invokes `computeHash`; it is not the content
hash over an empty input. -/
theorem newNode_rootHash_ne_emptyHash : ¬ (Node.new.rootHash = computeHash none []) := by
  decide

/-- C4 (amended): `RootHash` of a freshly created, never-inserted node is
the nil (empty) hash, which is distinct from every computed content hash —
in particular from the hash over an empty input, which is what an empty
node would hash to if `computeHash` ran on it. -/
theorem newNode_rootHash_nil :
    Node.new.rootHash = [] ∧
    computeHash none [] = sha256 [] ∧
    ∀ (v : Option (List Nat)) (c : List (Nat × Node)), computeHash v c ≠ [] := by
  refine ⟨rfl, rfl, ?_⟩
  intro v c
  simp [computeHash, sha256]

/-- C7: `VerifyCrossProof` succeeds exactly when both embedded pre-proofs
verify against their recorded pre-roots and both shards' roots moved; and
it returns the named failure of the first violated condition, checked in
source order. -/
theorem verifyCrossProof_success_iff (cp : CrossProof)
    (verifySingle : List Nat → List Nat → MerkleProof → Bool) :
    (verifyCrossProof cp verifySingle = none ↔
      (verifySingle cp.preSrcRoot cp.srcKey cp.srcProof = true ∧
       verifySingle cp.preDstRoot cp.dstKey cp.dstProof = true ∧
       cp.preSrcRoot ≠ cp.postSrcRoot ∧
       cp.preDstRoot ≠ cp.postDstRoot)) ∧
    verifyCrossProof cp verifySingle =
      (if verifySingle cp.preSrcRoot cp.srcKey cp.srcProof = false then
        some "invalid source pre‑proof"
      else if verifySingle cp.preDstRoot cp.dstKey cp.dstProof = false then
        some "invalid dest pre‑proof"
      else if cp.preSrcRoot = cp.postSrcRoot then
        some "source root didn’t change"
      else if cp.preDstRoot = cp.postDstRoot then
        some "dest root didn’t change"
      else none) := by
  unfold verifyCrossProof
  rcases h1 : verifySingle cp.preSrcRoot cp.srcKey cp.srcProof <;>
    rcases h2 : verifySingle cp.preDstRoot cp.dstKey cp.dstProof <;>
      by_cases h3 : cp.preSrcRoot = cp.postSrcRoot <;>
        by_cases h4 : cp.preDstRoot = cp.postDstRoot <;>
          simp [h1, h2, h3, h4]

/-- C10: whenever `GenerateCrossProof` returns an error, both lookups
happened before either insert, so the shard tries (hence both root
hashes) are completely unchanged. -/
theorem generateCrossProof_error_preserves_state (tries : List Node)
    (src dst : Nat) (keyFrom keyTo amount : List Nat) (e : String)
    (h : (generateCrossProof tries src dst keyFrom keyTo amount).1 = .error e) :
    (generateCrossProof tries src dst keyFrom keyTo amount).2 = tries ∧
    (generateCrossProof tries src dst keyFrom keyTo amount).2.map Node.rootHash =
      tries.map Node.rootHash := by
  simp only [generateCrossProof] at h ⊢
  rcases hs : (tries.getD src Node.new).getProof keyFrom with _ | ps <;>
    simp only [hs] at h ⊢
  · simp
  · rcases hd : (tries.getD dst Node.new).getProof keyTo with _ | pd <;>
      simp only [hd] at h ⊢
    · simp
    · exact absurd h (by simp)

/-- C10 witness: a concrete failed call (source key absent from an empty
trie) leaves the state untouched. -/
theorem generateCrossProof_error_preserves_state_witness :
    (generateCrossProof [Node.new] 0 0 [0] [0] [1]).2 = [Node.new] ∧
    (generateCrossProof [Node.new] 0 0 [0] [0] [1]).2.map Node.rootHash =
      [Node.new].map Node.rootHash :=
  generateCrossProof_error_preserves_state [Node.new] 0 0 [0] [0] [1]
    "src proof: key not found" rfl

/-- C6: with counters `[10, 10, 10, 40]` and split threshold `2`, a split
fires on index 3 (any merge threshold); with counters `[1, 1, 50, 50]` and
merge threshold `0.1`, no merge fires (any split threshold — the variance
600.25 is far above 0.1); with counters `[10, 10, 10, 10]`, merge
threshold `0.5` and a non-negative (hence not exceeded, variance is 0)
split threshold, a merge fires on indices 0 and 1, the leftmost pair. -/
theorem varianceThreshold_scenarios :
    (∀ tMerge : ℚ,
      (rebalanceWithProof
        [⟨Node.new, 10⟩, ⟨Node.new, 10⟩, ⟨Node.new, 10⟩, ⟨Node.new, 40⟩] 2 tMerge).2.operation
        = "split" ∧
      (rebalanceWithProof
        [⟨Node.new, 10⟩, ⟨Node.new, 10⟩, ⟨Node.new, 10⟩, ⟨Node.new, 40⟩] 2 tMerge).2.shardIndex
        = [3]) ∧
    (∀ tSplit : ℚ,
      (rebalanceWithProof
        [⟨Node.new, 1⟩, ⟨Node.new, 1⟩, ⟨Node.new, 50⟩, ⟨Node.new, 50⟩] tSplit (1/10)).2.operation
        ≠ "merge") ∧
    (∀ tSplit : ℚ, 0 ≤ tSplit →
      (rebalanceWithProof
        [⟨Node.new, 10⟩, ⟨Node.new, 10⟩, ⟨Node.new, 10⟩, ⟨Node.new, 10⟩] tSplit (1/2)).2.operation
        = "merge" ∧
      (rebalanceWithProof
        [⟨Node.new, 10⟩, ⟨Node.new, 10⟩, ⟨Node.new, 10⟩, ⟨Node.new, 10⟩] tSplit (1/2)).2.shardIndex
        = [0, 1]) := by
  refine ⟨?_, ?_, ?_⟩
  · intro tMerge
    have h1 : (2 : ℚ) < (calcStats [10, 10, 10, 40]).2 := by norm_num [calcStats]
    constructor <;>
      simp only [rebalanceWithProof, List.map, Shard.mutations, h1, if_true] <;> decide
  · intro tSplit
    rcases lt_or_le tSplit ((calcStats [1, 1, 50, 50]).2) with h1 | h1
    · simp only [rebalanceWithProof, List.map, Shard.mutations, h1, if_true]
      decide
    · have h1' : ¬ (tSplit < (calcStats [1, 1, 50, 50]).2) := not_lt.mpr h1
      have h2 : ¬ ((calcStats [1, 1, 50, 50]).2 < 1/10) := by norm_num [calcStats]
      simp only [rebalanceWithProof, List.map, Shard.mutations, h1', h2, if_false,
        false_and, if_true]
      decide
  · intro tSplit ht
    have h1 : ¬ (tSplit < (calcStats [10, 10, 10, 10]).2) := by
      rw [not_lt]
      have h0 : (calcStats [10, 10, 10, 10]).2 = 0 := by norm_num [calcStats]
      rw [h0]; exact ht
    have h2 : ((calcStats [10, 10, 10, 10]).2 < 1/2) := by norm_num [calcStats]
    constructor <;>
      (simp only [rebalanceWithProof, List.map, Shard.mutations, h1, h2, if_false,
        List.length_cons, List.length_nil, if_true];
       norm_num <;> decide)

/-- C6 witness: the three scenarios instantiated at concrete thresholds
(merge threshold `1/2` for the first, split threshold `2` for the second
and third, with `0 ≤ 2` discharged). -/
theorem varianceThreshold_scenarios_witness :
    ((rebalanceWithProof
      [⟨Node.new, 10⟩, ⟨Node.new, 10⟩, ⟨Node.new, 10⟩, ⟨Node.new, 40⟩] 2 (1/2)).2.operation
      = "split" ∧
     (rebalanceWithProof
      [⟨Node.new, 10⟩, ⟨Node.new, 10⟩, ⟨Node.new, 10⟩, ⟨Node.new, 40⟩] 2 (1/2)).2.shardIndex
      = [3]) ∧
    (rebalanceWithProof
      [⟨Node.new, 1⟩, ⟨Node.new, 1⟩, ⟨Node.new, 50⟩, ⟨Node.new, 50⟩] 2 (1/10)).2.operation
      ≠ "merge" ∧
    ((rebalanceWithProof
      [⟨Node.new, 10⟩, ⟨Node.new, 10⟩, ⟨Node.new, 10⟩, ⟨Node.new, 10⟩] 2 (1/2)).2.operation
      = "merge" ∧
     (rebalanceWithProof
      [⟨Node.new, 10⟩, ⟨Node.new, 10⟩, ⟨Node.new, 10⟩, ⟨Node.new, 10⟩] 2 (1/2)).2.shardIndex
      = [0, 1]) :=
  ⟨varianceThreshold_scenarios.1 (1/2),
   varianceThreshold_scenarios.2.1 2,
   varianceThreshold_scenarios.2.2 2 (by norm_num)⟩

/-- C1 (code bug): with mutation counters `[1, 5, 1]` (variance 32/9) and
thresholds split = 100, merge = 4, `RebalanceWithProof` decides a merge of
the two lowest-counter shards at the non-adjacent positions 0 and 2, and
`mergeShards` rebuilds the collection as `Shards[:0] ++ [merged] ++
Shards[3:]`: the shard at position 1 — strictly between the two chosen
positions — is discarded with all its data, and the shard count drops
from 3 to 1, not by exactly one. -/
theorem mergeShards_drops_middle_shard :
    (rebalanceWithProof
      [⟨Node.new, 1⟩, ⟨Node.new.insert [3] [9], 5⟩, ⟨Node.new, 1⟩] 100 4).2.operation
      = "merge" ∧
    (rebalanceWithProof
      [⟨Node.new, 1⟩, ⟨Node.new.insert [3] [9], 5⟩, ⟨Node.new, 1⟩] 100 4).2.shardIndex
      = [0, 2] ∧
    (rebalanceWithProof
      [⟨Node.new, 1⟩, ⟨Node.new.insert [3] [9], 5⟩, ⟨Node.new, 1⟩] 100 4).1.length = 1 ∧
    allPairs (rebalanceWithProof
      [⟨Node.new, 1⟩, ⟨Node.new.insert [3] [9], 5⟩, ⟨Node.new, 1⟩] 100 4).1 = [] ∧
    allPairs [⟨Node.new, 1⟩, ⟨Node.new.insert [3] [9], 5⟩, ⟨Node.new, 1⟩] = [([3], [9])] := by
  have h1 : ¬ ((100 : ℚ) < (calcStats [1, 5, 1]).2) := by norm_num [calcStats]
  have h2 : ((calcStats [1, 5, 1]).2 < 4) := by norm_num [calcStats]
  refine ⟨?_, ?_, ?_, ?_, ?_⟩ <;>
    first
      | decide
      | (simp only [rebalanceWithProof, List.map, Shard.mutations, h1, h2, if_false,
            List.length_cons, List.length_nil, if_true];
         norm_num <;> decide)

/-- C2 (code bug): a single `RebalanceWithProof` call that merges the
non-adjacent lowest-counter shards (counters `[0, 7, 0]`, variance 98/9,
thresholds split = 1000, merge = 11) loses key/value content: the pair
`([3], [9])` is recoverable via `Traverse` before the call and from no
shard afterwards. -/
theorem rebalance_merge_loses_content :
    allPairs [Shard.new, ⟨Node.new.insert [3] [9], 7⟩, Shard.new] = [([3], [9])] ∧
    (rebalanceWithProof
      [Shard.new, ⟨Node.new.insert [3] [9], 7⟩, Shard.new] 1000 11).2.operation = "merge" ∧
    allPairs (rebalanceWithProof
      [Shard.new, ⟨Node.new.insert [3] [9], 7⟩, Shard.new] 1000 11).1 = [] := by
  have h1 : ¬ ((1000 : ℚ) < (calcStats [0, 7, 0]).2) := by norm_num [calcStats]
  have h2 : ((calcStats [0, 7, 0]).2 < 11) := by norm_num [calcStats]
  refine ⟨?_, ?_, ?_⟩ <;>
    first
      | decide
      | (simp only [rebalanceWithProof, Shard.new, List.map, Shard.mutations, h1, h2, if_false,
            List.length_cons, List.length_nil, if_true];
         norm_num <;> decide)

/-- C8: decompressing the compression of any proof yields a proof with
the same value, the same number of steps, and at each depth a sibling map
equal as a map (same labels, same hashes — sibling maps are modelled as
association lists, and map equality is lookup equality); within the
compressed form each depth's key list is ascending and its hash list has
the same length. -/
theorem compressProof_decompressProof_roundtrip (p : MerkleProof) :
    (decompressProof (compressProof p)).value = p.value ∧
    (decompressProof (compressProof p)).steps.length = p.steps.length ∧
    (∀ i b, alookup ((decompressProof (compressProof p)).steps.getD i []) b
            = alookup (p.steps.getD i []) b) ∧
    (compressProof p).sibKeys.length = p.steps.length ∧
    (∀ ks ∈ (compressProof p).sibKeys, List.Sorted (· ≤ ·) ks) ∧
    (∀ i, ((compressProof p).sibKeys.getD i []).length
          = ((compressProof p).sibHashes.getD i []).length) := by
  have hsteps : (decompressProof (compressProof p)).steps
      = p.steps.map (fun s =>
          ((s.map Prod.fst).insertionSort (· ≤ ·)).zip
            (((s.map Prod.fst).insertionSort (· ≤ ·)).map (fun k => (alookup s k).getD []))) := by
    simp only [decompressProof, compressProof, List.zip_map']
    rw [List.map_map]
    rfl
  refine ⟨rfl, ?_, ?_, ?_, ?_, ?_⟩
  · rw [hsteps, List.length_map]
  · intro i b
    rw [hsteps]
    rcases hx : p.steps[i]? with _ | s
    · rw [List.getD_eq_getElem?_getD, List.getD_eq_getElem?_getD,
        List.getElem?_map, hx]
      simp
    · rw [List.getD_eq_getElem?_getD, List.getD_eq_getElem?_getD,
        List.getElem?_map, hx]
      simp only [Option.map_some', Option.getD_some]
      exact alookup_compress_step s b
  · simp [compressProof]
  · intro ks hks
    simp only [compressProof, List.mem_map] at hks
    rcases hks with ⟨s, _, rfl⟩
    exact List.sorted_insertionSort _ _
  · intro i
    simp only [compressProof]
    rcases hx : p.steps[i]? with _ | s
    · rw [List.getD_eq_getElem?_getD, List.getD_eq_getElem?_getD,
        List.getElem?_map, List.getElem?_map, hx]
      simp
    · rw [List.getD_eq_getElem?_getD, List.getD_eq_getElem?_getD,
        List.getElem?_map, List.getElem?_map, hx]
      simp

lemma alookup_setChild_self (l : List (Nat × Node)) (b : Nat) (c : Node) :
    alookup (setChild l b c) b = some c := by
  induction l with
  | nil => simp [setChild, alookup]
  | cons hd tl ih =>
    rcases hd with ⟨a, d⟩
    rcases Nat.lt_trichotomy b a with h | h | h
    · simp [setChild, h, alookup]
    · subst h
      simp [setChild, alookup, lt_irrefl]
    · have h1 : ¬ b < a := by omega
      have h2 : ¬ b = a := by omega
      simp [setChild, h1, h2, alookup, ih]

lemma alookup_setChild_ne (l : List (Nat × Node)) (b b' : Nat) (c : Node)
    (h : b' ≠ b) : alookup (setChild l b c) b' = alookup l b' := by
  induction l with
  | nil => simp [setChild, alookup, h]
  | cons hd tl ih =>
    rcases hd with ⟨a, d⟩
    rcases Nat.lt_trichotomy b a with hba | hba | hba
    · simp [setChild, hba, alookup, h]
    · subst hba
      simp [setChild, lt_irrefl, alookup, h]
    · have h1 : ¬ b < a := by omega
      have h2 : ¬ b = a := by omega
      by_cases h3 : b' = a <;> simp [setChild, h1, h2, alookup, h3, ih]

lemma setChild_setChild_same (l : List (Nat × Node)) (b : Nat) (c c' : Node) :
    setChild (setChild l b c) b c' = setChild l b c' := by
  induction l with
  | nil => simp [setChild, lt_irrefl]
  | cons hd tl ih =>
    rcases hd with ⟨a, d⟩
    rcases Nat.lt_trichotomy b a with h | h | h
    · simp [setChild, h, lt_irrefl]
    · subst h
      simp [setChild, lt_irrefl]
    · have h1 : ¬ b < a := by omega
      have h2 : ¬ b = a := by omega
      simp [setChild, h1, h2, ih]

lemma setChild_comm (l : List (Nat × Node)) (b1 b2 : Nat) (c1 c2 : Node)
    (h : b1 ≠ b2) :
    setChild (setChild l b1 c1) b2 c2 = setChild (setChild l b2 c2) b1 c1 := by
  induction l with
  | nil =>
    rcases Nat.lt_trichotomy b1 b2 with hb | hb | hb
    · have f1 : ¬ b2 < b1 := by omega
      have f2 : ¬ b2 = b1 := by omega
      simp [setChild, hb, f1, f2]
    · exact absurd hb h
    · have f1 : ¬ b1 < b2 := by omega
      have f2 : ¬ b1 = b2 := by omega
      simp [setChild, hb, f1, f2]
  | cons hd tl ih =>
    rcases hd with ⟨a, d⟩
    rcases Nat.lt_trichotomy b1 a with h1 | h1 | h1
    · rcases Nat.lt_trichotomy b2 a with h2 | h2 | h2
      · rcases Nat.lt_trichotomy b1 b2 with hb | hb | hb
        · have f1 : ¬ b2 < b1 := by omega
          have f2 : ¬ b2 = b1 := by omega
          have f3 : ¬ b1 = b2 := by omega
          simp [setChild, h1, h2, hb, f1, f2, f3]
        · exact absurd hb h
        · have f1 : ¬ b1 < b2 := by omega
          have f2 : ¬ b1 = b2 := by omega
          have f3 : ¬ b2 = b1 := by omega
          simp [setChild, h1, h2, hb, f1, f2, f3]
      · have f1 : b1 < b2 := by omega
        have f2 : ¬ b2 < b1 := by omega
        have f3 : ¬ b2 = b1 := by omega
        have f4 : ¬ b2 < a := by omega
        have f5 : b2 = a := h2
        have f6 : ¬ a < b1 := by omega
        have f7 : ¬ a = b1 := by omega
        simp [setChild, h1, f1, f2, f3, f4, f5, f6, f7]
      · have f1 : b1 < b2 := by omega
        have f2 : ¬ b2 < b1 := by omega
        have f3 : ¬ b2 = b1 := by omega
        have f4 : ¬ b2 < a := by omega
        have f5 : ¬ b2 = a := by omega
        simp [setChild, h1, f1, f2, f3, f4, f5]
    · rcases Nat.lt_trichotomy b2 a with h2 | h2 | h2
      · have f1 : b2 < b1 := by omega
        have f2 : ¬ b1 < b2 := by omega
        have f3 : ¬ b1 = b2 := by omega
        have f4 : ¬ b1 < a := by omega
        have f5 : b1 = a := h1
        have f6 : ¬ a < b2 := by omega
        have f7 : ¬ a = b2 := by omega
        simp [setChild, h2, f1, f2, f3, f4, f5, f6, f7]
      · omega
      · have f1 : b1 < b2 := by omega
        have f2 : ¬ b2 < b1 := by omega
        have f3 : ¬ b2 = b1 := by omega
        have f4 : ¬ b2 < a := by omega
        have f5 : ¬ b2 = a := by omega
        have f6 : ¬ b1 < a := by omega
        have f7 : b1 = a := h1
        simp [setChild, f1, f2, f3, f4, f5, f6, f7, lt_irrefl]
    · rcases Nat.lt_trichotomy b2 a with h2 | h2 | h2
      · have f1 : b2 < b1 := by omega
        have f2 : ¬ b1 < b2 := by omega
        have f3 : ¬ b1 = b2 := by omega
        have f4 : ¬ b1 < a := by omega
        have f5 : ¬ b1 = a := by omega
        simp [setChild, h2, f1, f2, f3, f4, f5]
      · have f1 : b2 < b1 := by omega
        have f2 : ¬ b1 < b2 := by omega
        have f3 : ¬ b1 = b2 := by omega
        have f4 : ¬ b1 < a := by omega
        have f5 : ¬ b1 = a := by omega
        have f6 : ¬ b2 < a := by omega
        have f7 : b2 = a := h2
        simp [setChild, f1, f2, f3, f4, f5, f6, f7, lt_irrefl]
      · have f4 : ¬ b1 < a := by omega
        have f5 : ¬ b1 = a := by omega
        have f6 : ¬ b2 < a := by omega
        have f7 : ¬ b2 = a := by omega
        simp [setChild, f4, f5, f6, f7, ih]

lemma insert_comm (k1 : List Nat) :
    ∀ (k2 : List Nat) (n : Node) (v1 v2 : List Nat), k1 ≠ k2 →
    (n.insert k1 v1).insert k2 v2 = (n.insert k2 v2).insert k1 v1 := by
  induction k1 with
  | nil =>
    intro k2 n v1 v2 hne
    cases k2 with
    | nil => exact absurd rfl hne
    | cons b2 r2 =>
      cases n with
      | mk val ch hs => simp [Node.insert]
  | cons b1 r1 ih =>
    intro k2 n v1 v2 hne
    cases k2 with
    | nil =>
      cases n with
      | mk val ch hs => simp [Node.insert]
    | cons b2 r2 =>
      cases n with
      | mk val ch hs =>
        by_cases hb : b1 = b2
        · subst hb
          have hr : r1 ≠ r2 := fun hr => hne (by rw [hr])
          simp only [Node.insert, alookup_setChild_self, Option.getD_some,
            setChild_setChild_same]
          rw [ih r2 _ v1 v2 hr]
        · simp only [Node.insert]
          rw [alookup_setChild_ne _ _ _ _ hb, alookup_setChild_ne _ _ _ _ (Ne.symm hb),
            setChild_comm _ _ _ _ _ hb]

/-- C5: inserting any finite set of pairs with pairwise-distinct keys in
either of two orders into a fresh empty trie yields identical root hashes
(the trie commitment is history-independent: children are hashed in
ascending edge-label order and inserts at distinct keys commute). -/
theorem insert_order_independent (l1 l2 : List (List Nat × List Nat))
    (hperm : l1.Perm l2) (hnodup : (l1.map Prod.fst).Nodup) :
    (buildTrie l1).rootHash = (buildTrie l2).rootHash := by
  have hcomm : ∀ x ∈ l1, ∀ y ∈ l1, ∀ (z : Node),
      (z.insert x.1 x.2).insert y.1 y.2 = (z.insert y.1 y.2).insert x.1 x.2 := by
    intro x hx y hy z
    by_cases hxy : x = y
    · rw [hxy]
    · have hk : x.1 ≠ y.1 := by
        intro hk
        exact hxy (List.inj_on_of_nodup_map hnodup hx hy hk)
      exact insert_comm x.1 y.1 z x.2 y.2 hk
  have : buildTrie l1 = buildTrie l2 := by
    unfold buildTrie
    exact hperm.foldl_eq' (fun x hx y hy z => hcomm x hx y hy z) Node.new
  rw [this]

/-- C5 witness: two concrete opposite-order insert sequences of the same
two distinct-keyed pairs hash identically. -/
theorem insert_order_independent_witness :
    (buildTrie [([1], [2]), ([3], [4])]).rootHash
      = (buildTrie [([3], [4]), ([1], [2])]).rootHash :=
  insert_order_independent [([1], [2]), ([3], [4])] [([3], [4]), ([1], [2])]
    (by decide) (by decide)

lemma mem_sortedInsertNat (b a : Nat) (l : List Nat) :
    a ∈ sortedInsertNat b l ↔ a = b ∨ a ∈ l := by
  induction l with
  | nil => simp [sortedInsertNat]
  | cons x xs ih =>
    rcases Nat.lt_trichotomy b x with h | h | h
    · have f1 : ¬ b = x := by omega
      simp [sortedInsertNat, h]
    · subst h
      rw [sortedInsertNat, if_neg (lt_irrefl b), if_pos rfl]
      simp only [List.mem_cons]
      tauto
    · have f1 : ¬ b < x := by omega
      have f2 : ¬ b = x := by omega
      simp [sortedInsertNat, f1, f2, ih]
      tauto

lemma pairwise_sortedInsertNat (b : Nat) (l : List Nat)
    (h : List.Pairwise (· < ·) l) :
    List.Pairwise (· < ·) (sortedInsertNat b l) := by
  induction l with
  | nil => simp [sortedInsertNat]
  | cons x xs ih =>
    rcases List.pairwise_cons.mp h with ⟨hx, hxs⟩
    rcases Nat.lt_trichotomy b x with hb | hb | hb
    · have f1 : b < x := hb
      rw [sortedInsertNat, if_pos hb]
      refine List.pairwise_cons.mpr ⟨?_, h⟩
      intro a ha
      rcases List.mem_cons.mp ha with rfl | ha
      · exact hb
      · exact lt_trans hb (hx a ha)
    · rw [sortedInsertNat, if_neg (by omega), if_pos hb]
      subst hb
      exact h
    · rw [sortedInsertNat, if_neg (by omega), if_neg (by omega)]
      refine List.pairwise_cons.mpr ⟨?_, ih hxs⟩
      intro a ha
      rcases (mem_sortedInsertNat b a xs).mp ha with rfl | ha
      · exact hb
      · exact hx a ha

lemma pairwise_sortDedup (l : List Nat) :
    List.Pairwise (· < ·) (sortDedup l) := by
  induction l with
  | nil => simp [sortDedup]
  | cons x xs ih => exact pairwise_sortedInsertNat x _ ih

lemma mem_sortDedup (l : List Nat) (a : Nat) :
    a ∈ sortDedup l ↔ a ∈ l := by
  induction l with
  | nil => simp [sortDedup]
  | cons x xs ih =>
    simp only [sortDedup, List.foldr_cons] at ih ⊢
    rw [mem_sortedInsertNat, ih, List.mem_cons]

lemma eq_of_pairwise_lt_mem_iff :
    ∀ (l1 l2 : List Nat), List.Pairwise (· < ·) l1 → List.Pairwise (· < ·) l2 →
    (∀ a, a ∈ l1 ↔ a ∈ l2) → l1 = l2 := by
  intro l1
  induction l1 with
  | nil =>
    intro l2 _ _ hmem
    cases l2 with
    | nil => rfl
    | cons y ys => exact absurd ((hmem y).mpr (List.mem_cons_self y ys)) (by simp)
  | cons x xs ih =>
    intro l2 h1 h2 hmem
    cases l2 with
    | nil => exact absurd ((hmem x).mp (List.mem_cons_self x xs)) (by simp)
    | cons y ys =>
      rcases List.pairwise_cons.mp h1 with ⟨hx, hxs⟩
      rcases List.pairwise_cons.mp h2 with ⟨hy, hys⟩
      have hxy : x = y := by
        by_contra hne
        have hxl2 : x ∈ y :: ys := (hmem x).mp (List.mem_cons_self x xs)
        have hyl1 : y ∈ x :: xs := (hmem y).mpr (List.mem_cons_self y ys)
        rcases List.mem_cons.mp hxl2 with rfl | hxys
        · exact hne rfl
        · rcases List.mem_cons.mp hyl1 with rfl | hyxs
          · exact hne rfl
          · exact absurd (lt_trans (hx y hyxs) (hy x hxys)) (lt_irrefl x)
      subst hxy
      have htl : ∀ a, a ∈ xs ↔ a ∈ ys := by
        intro a
        constructor
        · intro ha
          have : a ∈ x :: ys := (hmem a).mp (List.mem_cons.mpr (Or.inr ha))
          rcases List.mem_cons.mp this with rfl | h
          · exact absurd (hx a ha) (lt_irrefl a)
          · exact h
        · intro ha
          have : a ∈ x :: xs := (hmem a).mpr (List.mem_cons.mpr (Or.inr ha))
          rcases List.mem_cons.mp this with rfl | h
          · exact absurd (hy a ha) (lt_irrefl a)
          · exact h
      rw [ih ys hxs hys htl]

lemma keys_setChild (l : List (Nat × Node)) (b : Nat) (c : Node) :
    (setChild l b c).map Prod.fst = sortedInsertNat b (l.map Prod.fst) := by
  induction l with
  | nil => simp [setChild, sortedInsertNat]
  | cons hd tl ih =>
    rcases hd with ⟨a, d⟩
    rcases Nat.lt_trichotomy b a with h | h | h
    · simp [setChild, sortedInsertNat, h]
    · subst h
      simp [setChild, sortedInsertNat, lt_irrefl]
    · have f1 : ¬ b < a := by omega
      have f2 : ¬ b = a := by omega
      simp [setChild, sortedInsertNat, f1, f2, ih]

lemma keys_sibs (ch : List (Nat × Node)) (b : Nat) :
    ((ch.filter (fun c => c.1 ≠ b)).map (fun c => (c.1, c.2.hash))).map Prod.fst
      = (ch.map Prod.fst).filter (fun a => a ≠ b) := by
  induction ch with
  | nil => simp
  | cons hd tl ih =>
    rcases hd with ⟨a, d⟩
    by_cases h : a = b <;> simp [h] <;> simpa using ih

lemma alookup_sibs (ch : List (Nat × Node)) (b a : Nat) (ha : a ≠ b) :
    alookup ((ch.filter (fun c => c.1 ≠ b)).map (fun c => (c.1, c.2.hash))) a
      = (alookup ch a).map Node.hash := by
  induction ch with
  | nil => simp [alookup]
  | cons hd tl ih =>
    rcases hd with ⟨x, d⟩
    by_cases hx : x = b
    · subst hx
      have hax : ¬ a = x := ha
      have hcons : alookup ((x, d) :: tl) a = alookup tl a := by simp [alookup, hax]
      rw [hcons] at *
      simp only [List.filter_cons]
      rw [if_neg (by simp)]
      exact ih
    · by_cases hax : a = x
      · subst hax
        simp only [List.filter_cons]
        rw [if_pos (by simpa using hx)]
        simp [alookup]
      · have hcons : alookup ((x, d) :: tl) a = alookup tl a := by simp [alookup, hax]
        rw [hcons]
        simp only [List.filter_cons]
        rw [if_pos (by simpa using hx)]
        simp only [List.map_cons]
        rw [show alookup ((x, d.hash) :: List.map (fun c => (c.1, c.2.hash))
              (List.filter (fun c => decide (c.1 ≠ b)) tl)) a
            = alookup (List.map (fun c => (c.1, c.2.hash))
              (List.filter (fun c => decide (c.1 ≠ b)) tl)) a from by simp [alookup, hax]]
        exact ih

lemma alookup_eq_of_mem (ch : List (Nat × Node)) (hnd : (ch.map Prod.fst).Nodup)
    (a : Nat) (c : Node) (hm : (a, c) ∈ ch) : alookup ch a = some c := by
  induction ch with
  | nil => simp at hm
  | cons hd tl ih =>
    rcases hd with ⟨x, d⟩
    rcases List.mem_cons.mp hm with heq | hm'
    · rw [Prod.mk.injEq] at heq
      rcases heq with ⟨rfl, rfl⟩
      simp [alookup]
    · have hax : ¬ a = x := by
        intro h
        subst h
        rcases List.nodup_cons.mp hnd with ⟨hni, _⟩
        exact hni (List.mem_map.mpr ⟨(a, c), hm', rfl⟩)
      simp [alookup, hax]
      exact ih (List.nodup_cons.mp hnd).2 hm'

lemma sortedKeys_nodup (ch : List (Nat × Node)) (hs : sortedKeys ch) :
    (ch.map Prod.fst).Nodup :=
  hs.imp (fun h => Nat.ne_of_lt h)

lemma flatMap_over_keys (ch : List (Nat × Node)) (g : Nat → List Nat)
    (h : ∀ c ∈ ch, g c.1 = c.2.hash) :
    (ch.map Prod.fst).flatMap (fun a => 1 :: a :: g a)
      = ch.flatMap (fun c => 1 :: c.1 :: c.2.hash) := by
  induction ch with
  | nil => simp
  | cons hd tl ih =>
    simp only [List.map_cons, List.flatMap_cons]
    rw [h hd (List.mem_cons_self hd tl),
      ih (fun c hc => h c (List.mem_cons.mpr (Or.inr hc)))]

lemma verifyStep_complete (ch : List (Nat × Node)) (b : Nat) (child : Node)
    (hs : sortedKeys ch) (hc : alookup ch b = some child) :
    verifyStep b ((ch.filter (fun c => c.1 ≠ b)).map (fun c => (c.1, c.2.hash))) child.hash
      = computeHash none ch := by
  have hbmem : b ∈ ch.map Prod.fst := by
    have hsome : (alookup ch b).isSome := by rw [hc]; rfl
    exact (alookup_isSome ch b).mp hsome
  have hks : sortDedup
      (b :: ((ch.filter (fun c => c.1 ≠ b)).map (fun c => (c.1, c.2.hash))).map Prod.fst)
      = ch.map Prod.fst := by
    apply eq_of_pairwise_lt_mem_iff _ _ (pairwise_sortDedup _) hs
    intro a
    rw [mem_sortDedup, keys_sibs, List.mem_cons, List.mem_filter]
    constructor
    · rintro (rfl | ⟨hmem, _⟩)
      · exact hbmem
      · exact hmem
    · intro hmem
      by_cases hab : a = b
      · exact Or.inl hab
      · exact Or.inr ⟨hmem, by simpa using hab⟩
  rw [verifyStep, hks, computeHash, hashInput]
  rw [List.nil_append]
  congr 1
  apply flatMap_over_keys
  intro c hcm
  by_cases hcb : c.1 = b
  · rw [if_pos hcb]
    have : alookup ch c.1 = some c.2 :=
      alookup_eq_of_mem ch (sortedKeys_nodup ch hs) c.1 c.2 (by simpa using hcm)
    rw [hcb, hc] at this
    rw [Option.some.injEq] at this
    rw [this]
  · rw [if_neg hcb, alookup_sibs ch b c.1 hcb,
      alookup_eq_of_mem ch (sortedKeys_nodup ch hs) c.1 c.2 (by simpa using hcm)]
    rfl

lemma allGood_subGood (n : Node) (h : allGood n) : subGood n := by
  constructor
  · exact (h []).2
  · intro b c hc k
    exact ((h (b :: k)).2.2) c hc

lemma subGood_new : subGood Node.new := by
  constructor
  · simp [Node.new, Node.children, sortedKeys]
  · intro b c hc
    simp [Node.new, Node.children, alookup] at hc

lemma sortedKeys_setChild (l : List (Nat × Node)) (b : Nat) (c : Node)
    (h : sortedKeys l) : sortedKeys (setChild l b c) := by
  unfold sortedKeys
  rw [keys_setChild]
  exact pairwise_sortedInsertNat b _ h

lemma insert_allGood (a : List Nat) :
    ∀ (n : Node) (v : List Nat), subGood n → allGood (n.insert a v) := by
  induction a with
  | nil =>
    intro n v hsub k
    rcases n with ⟨val, ch, hs⟩
    rcases hsub with ⟨hsort, hch⟩
    cases k with
    | nil => exact ⟨rfl, hsort⟩
    | cons b rest => exact ⟨rfl, hsort, fun c hc => hch b c hc rest⟩
  | cons b r ih =>
    intro n v hsub k
    rcases n with ⟨val, ch, hs⟩
    rcases hsub with ⟨hsort, hch⟩
    have hchild : allGood (((alookup ch b).getD Node.new).insert r v) := by
      rcases hcb : alookup ch b with _ | c0
      · simpa using ih Node.new v subGood_new
      · have hc0 : subGood c0 := allGood_subGood c0 (hch b c0 hcb)
        simpa using ih c0 v hc0
    have hsort' : sortedKeys (setChild ch b (((alookup ch b).getD Node.new).insert r v)) :=
      sortedKeys_setChild _ _ _ hsort
    have hch' : ∀ b' c,
        alookup (setChild ch b (((alookup ch b).getD Node.new).insert r v)) b' = some c →
        allGood c := by
      intro b' c hc
      by_cases hbb : b' = b
      · subst hbb
        rw [alookup_setChild_self, Option.some.injEq] at hc
        rw [← hc]
        exact hchild
      · rw [alookup_setChild_ne _ _ _ _ hbb] at hc
        exact hch b' c hc
    cases k with
    | nil => exact ⟨rfl, hsort'⟩
    | cons b' rest => exact ⟨rfl, hsort', fun c hc => hch' b' c hc rest⟩

lemma foldl_insert_allGood (l : List (List Nat × List Nat)) :
    ∀ t, allGood t → allGood (l.foldl (fun t kv => t.insert kv.1 kv.2) t) := by
  induction l with
  | nil => intro t h; exact h
  | cons x xs ih =>
    intro t h
    exact ih _ (insert_allGood x.1 t x.2 (allGood_subGood t h))

lemma buildTrie_cons_allGood (x : List Nat × List Nat) (l : List (List Nat × List Nat)) :
    allGood (buildTrie (x :: l)) := by
  unfold buildTrie
  rw [List.foldl_cons]
  exact foldl_insert_allGood l _ (insert_allGood x.1 Node.new x.2 subGood_new)

lemma lookupKey_new (k : List Nat) : Node.new.lookupKey k = none := by
  cases k <;> simp [Node.new, Node.lookupKey, Node.value, Node.children, alookup]

lemma lookupKey_insert_ne (a : List Nat) :
    ∀ (k : List Nat) (n : Node) (v : List Nat), k ≠ a →
      (n.insert a v).lookupKey k = n.lookupKey k := by
  induction a with
  | nil =>
    intro k n v hk
    rcases n with ⟨val, ch, hs⟩
    cases k with
    | nil => exact absurd rfl hk
    | cons b r => simp [Node.insert, Node.lookupKey, Node.children]
  | cons ab ar ih =>
    intro k n v hk
    rcases n with ⟨val, ch, hs⟩
    cases k with
    | nil => simp [Node.insert, Node.lookupKey, Node.value]
    | cons b r =>
      by_cases hbb : b = ab
      · subst hbb
        have hr : r ≠ ar := fun h => hk (by rw [h])
        simp only [Node.insert, Node.lookupKey, Node.children]
        rw [alookup_setChild_self]
        rcases hcb : alookup ch b with _ | c0
        · simp only [hcb, Option.getD_none]
          rw [ih r Node.new v hr, lookupKey_new]
        · simp only [hcb, Option.getD_some]
          rw [ih r c0 v hr]
      · simp only [Node.insert, Node.lookupKey, Node.children]
        rw [alookup_setChild_ne _ _ _ _ hbb]

lemma lookupKey_foldl_notmem (l : List (List Nat × List Nat)) :
    ∀ (t : Node) (k : List Nat), k ∉ l.map Prod.fst →
      (l.foldl (fun t kv => t.insert kv.1 kv.2) t).lookupKey k = t.lookupKey k := by
  induction l with
  | nil => intro t k _; rfl
  | cons x xs ih =>
    intro t k h
    rw [List.map_cons, List.mem_cons] at h
    push_neg at h
    rw [List.foldl_cons, ih _ k h.2, lookupKey_insert_ne x.1 k t x.2 h.1]

lemma getProof_isSome (k : List Nat) :
    ∀ (n : Node), (n.getProof k).isSome = (n.lookupKey k).isSome := by
  induction k with
  | nil =>
    intro n
    rcases hv : n.value with _ | v <;>
      simp [Node.getProof, Node.lookupKey, hv]
  | cons b r ih =>
    intro n
    rcases hc : alookup n.children b with _ | c
    · simp [Node.getProof, Node.lookupKey, hc]
    · simp only [Node.getProof, Node.lookupKey, hc]
      have hihc := ih c
      rcases hp : c.getProof r with _ | p
      · rw [hp] at hihc
        simp only [Option.isSome_none, Option.isSome] at hihc ⊢
        rcases hl : c.lookupKey r with _ | w
        · simp
        · rw [hl] at hihc; simp at hihc
      · rw [hp] at hihc
        simp only [Option.isSome_some, Option.isSome] at hihc ⊢
        rcases hl : c.lookupKey r with _ | w
        · rw [hl] at hihc; simp at hihc
        · simp

lemma climb_getProof (k : List Nat) :
    ∀ (n : Node) (p : MerkleProof), pathGood n k → cleanPath n k = true →
      n.getProof k = some p →
      climb k p.steps (sha256 (0 :: p.value)) = n.hash := by
  induction k with
  | nil =>
    intro n p hg hcl hp
    rcases n with ⟨val, ch, hs⟩
    rcases hg with ⟨hhash, _⟩
    have hch : ch = [] := by
      simpa [cleanPath, Node.children, List.isEmpty_iff] using hcl
    rcases hv : val with _ | v
    · rw [hv] at hp
      simp [Node.getProof, Node.value] at hp
    · rw [hv] at hp
      simp only [Node.getProof, Node.value] at hp
      rw [Option.some.injEq] at hp
      rw [← hp]
      simp only [climb, Node.hash] at hhash ⊢
      rw [hhash, hv, hch]
      simp [computeHash, hashInput, Node.value, Node.children]
  | cons b r ih =>
    intro n p hg hcl hp
    rcases n with ⟨val, ch, hs⟩
    rcases hg with ⟨hhash, hsort, hchildgood⟩
    simp only [Node.children] at hsort hchildgood
    simp only [Node.value, Node.children, Node.hash] at hhash
    rcases hc : alookup ch b with _ | child
    · simp only [Node.getProof, Node.children, hc] at hp
      exact Option.noConfusion hp
    · rcases hq : child.getProof r with _ | q
      · simp only [Node.getProof, Node.children, hc, hq] at hp
        exact Option.noConfusion hp
      · have hpv : p = ⟨q.value,
            ((ch.filter (fun c => c.1 ≠ b)).map (fun c => (c.1, c.2.hash))) :: q.steps⟩ := by
          simp only [Node.getProof, Node.children, hc, hq, Option.some.injEq] at hp
          exact hp.symm
        have hvn : val = none := by
          rcases hv : val with _ | v
          · rfl
          · simp only [cleanPath, Node.value, Node.children, hv, Option.isNone_some,
              Bool.false_and] at hcl
            exact absurd hcl (by simp)
        have hclc : cleanPath child r = true := by
          simp only [cleanPath, Node.value, Node.children, hc, Bool.and_eq_true] at hcl
          exact hcl.2
        have hgc : pathGood child r := hchildgood child hc
        have hih : climb r q.steps (sha256 (0 :: q.value)) = child.hash :=
          ih child q hgc hclc hq
        rw [hpv]
        simp only [climb, List.headD_cons, List.tail_cons]
        rw [hih]
        rw [verifyStep_complete ch b child hsort hc]
        show computeHash none ch = (Node.mk val ch hs).hash
        rw [show (Node.mk val ch hs).hash = hs from rfl]
        rw [hhash, hvn]

/-- C3 (counterexample): after inserting keys `[0]` and `[0, 1]`, the key
`[0, 1]` is present and `GetProof` succeeds, but `VerifyProof` rejects its
own proof: the ancestor node at `[0]` stores a value, and the verifier
rebuilds that level from child contributions only. -/
theorem verify_fails_on_nested_keys :
    (buildTrie [([0], [1]), ([0, 1], [2])]).lookupKey [0, 1] = some [2] ∧
    ((buildTrie [([0], [1]), ([0, 1], [2])]).getProof [0, 1]).isSome = true ∧
    verifyProof (buildTrie [([0], [1]), ([0, 1], [2])]).rootHash [0, 1]
      (((buildTrie [([0], [1]), ([0, 1], [2])]).getProof [0, 1]).getD ⟨[], []⟩) = false := by
  decide

/-- C3 (amended): over a trie built by any insert sequence — `k` a present
key whose path is clean (no strict ancestor stores a value, terminal node
childless), `kp` any present key, `ka` a never-inserted key — `GetProof k`
succeeds and its proof verifies against the root hash, `GetProof kp`
succeeds, and `GetProof ka` fails with not-found. -/
theorem getProof_verifyProof_correct (l : List (List Nat × List Nat))
    (k kp ka : List Nat)
    (hk : (buildTrie l).lookupKey k ≠ none)
    (hclean : cleanPath (buildTrie l) k = true)
    (hp : (buildTrie l).lookupKey kp ≠ none)
    (ha : ka ∉ l.map Prod.fst) :
    (∃ p, (buildTrie l).getProof k = some p ∧
      verifyProof (buildTrie l).rootHash k p = true) ∧
    ((buildTrie l).getProof kp).isSome = true ∧
    (buildTrie l).getProof ka = none := by
  rcases l with _ | ⟨x, xs⟩
  · exact absurd (lookupKey_new k) hk
  have hgood : allGood (buildTrie (x :: xs)) := buildTrie_cons_allGood x xs
  refine ⟨?_, ?_, ?_⟩
  · have hsome : ((buildTrie (x :: xs)).getProof k).isSome = true := by
      rw [getProof_isSome]
      rcases hl : (buildTrie (x :: xs)).lookupKey k with _ | w
      · exact absurd hl hk
      · rfl
    rcases hgp : (buildTrie (x :: xs)).getProof k with _ | p
    · rw [hgp] at hsome; simp at hsome
    · refine ⟨p, rfl, ?_⟩
      have hcl := climb_getProof k (buildTrie (x :: xs)) p (hgood k) hclean hgp
      rw [verifyProof, Node.rootHash]
      simp [hcl]
  · rw [getProof_isSome]
    rcases hl : (buildTrie (x :: xs)).lookupKey kp with _ | w
    · exact absurd hl hp
    · rfl
  · have hnone : (buildTrie (x :: xs)).lookupKey ka = none := by
      have := lookupKey_foldl_notmem (x :: xs) Node.new ka ha
      rw [← buildTrie] at this
      rw [this, lookupKey_new]
    have hsome := getProof_isSome ka (buildTrie (x :: xs))
    rw [hnone] at hsome
    simp only [Option.isSome_none] at hsome
    rcases hgp : (buildTrie (x :: xs)).getProof ka with _ | p
    · rfl
    · rw [hgp] at hsome; simp at hsome

/-- C3 witness: one insert of key `[0]`; the key is present with a clean
path, `[1]` was never inserted; the proof verifies and the absent key is
rejected. -/
theorem getProof_verifyProof_correct_witness :
    (∃ p, (buildTrie [([0], [5])]).getProof [0] = some p ∧
      verifyProof (buildTrie [([0], [5])]).rootHash [0] p = true) ∧
    ((buildTrie [([0], [5])]).getProof [0]).isSome = true ∧
    (buildTrie [([0], [5])]).getProof [1] = none :=
  getProof_verifyProof_correct [([0], [5])] [0] [0] [1]
    (by decide) (by decide) (by decide) (by decide)

end ShardedChain
